import Mathlib

/-!
Verification of the Velero custom restore plugin
(`internal/plugin/replace_pattern_action.go`, together with the earlier
revision of the same file) against its natural-language specification.

The plugin's data plane is a JSON round-trip: a resource is an
`unstructured.Unstructured` (a JSON object of string keys), it is marshalled
to text, the substitution rules are applied with `strings.ReplaceAll`, for a
Pod the `metadata.name` field is re-imposed, and the text is unmarshalled
back.

The document model below covers the string/object fragment of JSON: these are
the only value forms the plugin ever inspects (`kind`, `metadata.name` and
`metadata.labels` are strings inside objects).  Numbers, arrays, booleans and
null are orthogonal to every claim and omitted.  Strings are modelled at rune
granularity (Go operates on bytes; for the ASCII texts involved the two
coincide), and the escaping model covers the quote and backslash escapes
(Go additionally escapes control and HTML characters, which no claim
touches).

Go's `json.Marshal` of a `map[string]interface{}` emits object keys sorted
lexicographically and keeps object keys unique; documents of that canonical
shape are characterised by `Json.wfB` below, and `parse` always produces
canonical documents (duplicate keys resolve last-write-wins, as in Go's
`json.Unmarshal` into a map).
-/

/-- A JSON document restricted to the string/object fragment used by the
plugin.  An object is an association list of key/value pairs; canonical
documents (the output of Go's `json.Marshal` of a map) keep the keys strictly
sorted. -/
inductive Json where
  | str (s : String)
  | obj (ms : List (String × Json))

mutual

def Json.decEq : (a b : Json) → Decidable (a = b)
  | .str s, .str t =>
    match String.decEq s t with
    | isTrue h => isTrue (by rw [h])
    | isFalse h => isFalse (fun hh => by cases hh; exact h rfl)
  | .str _, .obj _ => isFalse (fun h => by cases h)
  | .obj _, .str _ => isFalse (fun h => by cases h)
  | .obj ms, .obj ns =>
    match Json.decEqMems ms ns with
    | isTrue h => isTrue (by rw [h])
    | isFalse h => isFalse (fun hh => by cases hh; exact h rfl)

def Json.decEqMems : (ms ns : List (String × Json)) → Decidable (ms = ns)
  | [], [] => isTrue rfl
  | [], _ :: _ => isFalse (fun h => by cases h)
  | _ :: _, [] => isFalse (fun h => by cases h)
  | (k, v) :: ms, (k', v') :: ns =>
    match String.decEq k k', Json.decEq v v', Json.decEqMems ms ns with
    | isTrue h₁, isTrue h₂, isTrue h₃ => isTrue (by rw [h₁, h₂, h₃])
    | isFalse h₁, _, _ => isFalse (fun h => by cases h; exact h₁ rfl)
    | _, isFalse h₂, _ => isFalse (fun h => by cases h; exact h₂ rfl)
    | _, _, isFalse h₃ => isFalse (fun h => by cases h; exact h₃ rfl)

end

instance : DecidableEq Json := Json.decEq

deriving instance DecidableEq for Except

/-- Lexicographic order on character lists, by code point.  This is the
order in which Go's `json.Marshal` sorts the keys of a map (byte order;
identical on the ASCII keys involved). -/
def keyLtL : List Char → List Char → Bool
  | [], [] => false
  | [], _ :: _ => true
  | _ :: _, [] => false
  | a :: as, b :: bs =>
    if a.toNat < b.toNat then true
    else if b.toNat < a.toNat then false
    else keyLtL as bs

/-- Key order on strings (see `keyLtL`). -/
def keyLt (a b : String) : Bool := keyLtL a.data b.data

/-- Insert a key/value pair into a key-sorted association list, overwriting
an existing binding of the same key.  This is how a Go map assignment
followed by sorted marshalling behaves. -/
def insertSorted (k : String) (v : Json) : List (String × Json) → List (String × Json)
  | [] => [(k, v)]
  | (k', v') :: rest =>
    if keyLt k k' then (k, v) :: (k', v') :: rest
    else if k = k' then (k, v) :: rest
    else (k', v') :: insertSorted k v rest

mutual

/-- Canonical-document check: every object has strictly sorted keys.
Mirrors the shape `json.Marshal` produces from Go maps. -/
def Json.wfB : Json → Bool
  | .str _ => true
  | .obj ms => Json.wfMems ms

/-- Member-list part of `Json.wfB`: adjacent keys strictly increase and all
values are canonical. -/
def Json.wfMems : List (String × Json) → Bool
  | [] => true
  | [kv] => kv.2.wfB
  | kv₁ :: kv₂ :: rest =>
    kv₁.2.wfB && keyLt kv₁.1 kv₂.1 && Json.wfMems (kv₂ :: rest)

end

/-- String escaping used by the serializer: quote and backslash are escaped
with a backslash, other characters pass through. -/
def escS : List Char → List Char
  | [] => []
  | c :: rest => if c = '"' ∨ c = '\\' then '\\' :: c :: escS rest else c :: escS rest

mutual

/-- Serializer: the canonical text `json.Marshal` produces for a document
(keys are emitted in list order; canonical documents keep them sorted). -/
def serL : Json → List Char
  | .str s => '"' :: escS s.data ++ ['"']
  | .obj ms => '\x7b' :: serMems ms ++ ['\x7d']

/-- Serializer for the member list of an object. -/
def serMems : List (String × Json) → List Char
  | [] => []
  | [kv] => '"' :: escS kv.1.data ++ '"' :: ':' :: serL kv.2
  | kv :: rest => ('"' :: escS kv.1.data ++ '"' :: ':' :: serL kv.2) ++ ',' :: serMems rest

end

/-- Body of a JSON string literal (after the opening quote): returns the
decoded characters and the remaining input after the closing quote. -/
def parseStrBody : List Char → Option (List Char × List Char)
  | [] => none
  | c :: rest =>
    if c = '"' then some ([], rest)
    else if c = '\\' then
      match rest with
      | [] => none
      | e :: rest₂ =>
        if e = '"' ∨ e = '\\' then
          match parseStrBody rest₂ with
          | none => none
          | some (s, rem) => some (e :: s, rem)
        else none
    else
      match parseStrBody rest with
      | none => none
      | some (s, rem) => some (c :: s, rem)

mutual

/-- Fueled recursive-descent parser for one JSON value.  The fuel only
bounds the recursion depth; `parse` below supplies enough fuel for any
input. -/
def parseVal : Nat → List Char → Option (Json × List Char)
  | 0, _ => none
  | fuel + 1, l =>
    match l with
    | '"' :: rest =>
      match parseStrBody rest with
      | none => none
      | some (s, rem) => some (Json.str ⟨s⟩, rem)
    | '\x7b' :: rest =>
      match rest with
      | '\x7d' :: rem => some (Json.obj [], rem)
      | _ => parseMembers fuel rest []
    | _ => none

/-- Parses the members of an object after its opening brace (non-empty
case), accumulating bindings Go-map style: later duplicate keys overwrite
earlier ones, and the binding list is kept sorted. -/
def parseMembers : Nat → List Char → List (String × Json) → Option (Json × List Char)
  | 0, _, _ => none
  | fuel + 1, l, acc =>
    match l with
    | '"' :: rest =>
      match parseStrBody rest with
      | none => none
      | some (k, rem) =>
        match rem with
        | ':' :: rem₂ =>
          match parseVal fuel rem₂ with
          | none => none
          | some (v, rem₃) =>
            match rem₃ with
            | ',' :: rem₄ => parseMembers fuel rem₄ (insertSorted ⟨k⟩ v acc)
            | '\x7d' :: rem₄ => some (Json.obj (insertSorted ⟨k⟩ v acc), rem₄)
            | _ => none
        | _ => none
    | _ => none

end

/-- Deserialization of a complete text, as `json.Unmarshal` performs it:
the whole input must be consumed by one value. -/
def parse (t : List Char) : Option Json :=
  match parseVal (t.length + 1) t with
  | some (j, []) => some j
  | _ => none

/-- `strings.Replace` with an empty pattern: the replacement is inserted
before every character and once at the end. -/
def replaceAllEmptyPat (new : List Char) : List Char → List Char
  | [] => new
  | c :: rest => new ++ c :: replaceAllEmptyPat new rest

/-- Scanning core of `strings.ReplaceAll` for a non-empty pattern: replace
the leftmost occurrence and continue after the replaced segment
(non-overlapping, left to right).  The structural counter only bounds the
recursion; `replaceAll` supplies the input length, which always suffices
because every step consumes at least one character. -/
def replCore (old new : List Char) : Nat → List Char → List Char
  | _, [] => []
  | 0, s => s
  | fuel + 1, c :: rest =>
    if old.isPrefixOf (c :: rest) then new ++ replCore old new fuel (rest.drop (old.length - 1))
    else c :: replCore old new fuel rest

/-- Go's `strings.ReplaceAll s old new`. -/
def replaceAll (s old new : List Char) : List Char :=
  if old.isEmpty then replaceAllEmptyPat new s else replCore old new s.length s

/-- `input.Item.GetObjectKind().GroupVersionKind().Kind` of an unstructured
resource: its top-level `kind` member, empty when absent or not a string. -/
def kindOf (j : Json) : String :=
  match j with
  | .obj ms =>
    match List.lookup "kind" ms with
    | some (.str s) => s
    | _ => ""
  | _ => ""

/-- `GetName()` of an unstructured resource: `metadata.name` as a string,
empty when absent or not a string. -/
def nameOf (j : Json) : String :=
  match j with
  | .obj ms =>
    match List.lookup "metadata" ms with
    | some (.obj mm) =>
      match List.lookup "name" mm with
      | some (.str s) => s
      | _ => ""
    | _ => ""
  | _ => ""

/-- Reads an object's members as a string-to-string map; fails if any value
is not a string (`NestedStringMap` semantics). -/
def strPairs : List (String × Json) → Option (List (String × String))
  | [] => some []
  | (k, .str v) :: rest => (strPairs rest).map (fun l => (k, v) :: l)
  | _ => none

/-- `GetLabels()` of an unstructured resource: `metadata.labels` as a
string map, or `none` (Go `nil`) when absent or not a map of strings. -/
def labelsOf (j : Json) : Option (List (String × String)) :=
  match j with
  | .obj ms =>
    match List.lookup "metadata" ms with
    | some (.obj mm) =>
      match List.lookup "labels" mm with
      | some (.obj ls) => strPairs ls
      | _ => none
    | _ => none
  | _ => none

/-- `extractMetadataName` of the plugin: unmarshal the serialized bytes and
read `metadata.name`; any failure yields the empty string. -/
def extractMetadataName (jsonData : List Char) : String :=
  match parse jsonData with
  | some (Json.obj ms) =>
    match List.lookup "metadata" ms with
    | some (Json.obj mm) =>
      match List.lookup "name" mm with
      | some (Json.str s) => s
      | _ => ""
    | _ => ""
  | _ => ""

/-- `restoreMetadataName` of the plugin: re-parse the substituted text; if it
is an object, overwrite `metadata.name` with `originalName` (when `metadata`
is an object) and re-marshal; otherwise return the text unchanged. -/
def restoreMetadataName (modifiedString : List Char) (originalName : String) : List Char :=
  match parse modifiedString with
  | some (Json.obj ms) =>
    match List.lookup "metadata" ms with
    | some (Json.obj mm) =>
      serL (Json.obj (insertSorted "metadata"
        (Json.obj (insertSorted "name" (Json.str originalName) mm)) ms))
    | _ => serL (Json.obj ms)
  | _ => modifiedString

/-- The text after the substitution loop of `replacePatternAction`: the
serialized resource with every rule applied by `strings.ReplaceAll`, in the
order the rule list presents them (Go iterates the map in unspecified
order). -/
def substitutedText (item : Json) (patterns : List (String × String)) : List Char :=
  patterns.foldl (fun acc pr => replaceAll acc pr.1.data pr.2.data) (serL item)

/-- The final text of `replacePatternAction`: for a Pod, the name captured
from the original serialized form is re-imposed on the substituted text. -/
def finalText (item : Json) (patterns : List (String × String)) : List Char :=
  if kindOf item = "Pod" then
    restoreMetadataName (substitutedText item patterns) (extractMetadataName (serL item))
  else substitutedText item patterns

/-- `replacePatternAction` of `internal/plugin/replace_pattern_action.go`:
marshal, capture the Pod name, apply all rules, restore the Pod name,
unmarshal.  The unmarshal of the final text into an unstructured object is
the only failure point (`json.Marshal` of an unstructured object cannot
fail in the model). -/
def replacePatternAction (item : Json) (patterns : List (String × String)) : Except Unit Json :=
  match parse (finalText item patterns) with
  | some (Json.obj ms) => Except.ok (Json.obj ms)
  | _ => Except.error ()

/-- `replacePatternAction` of the earlier revision (`src/unnamed/part_000`):
identical except that the Pod name is neither captured nor restored. -/
def replacePatternActionPart0 (item : Json) (patterns : List (String × String)) : Except Unit Json :=
  match parse (substitutedText item patterns) with
  | some (Json.obj ms) => Except.ok (Json.obj ms)
  | _ => Except.error ()

/-- Phase of a `PodVolumeRestore` (`velerov1api.PodVolumeRestorePhase`). -/
inductive PodVolumeRestorePhase where
  | new
  | inProgress
  | completed
  | failed
deriving DecidableEq

/-- A `PodVolumeRestore` record of the velero namespace: its own
`metadata.name` (the identity `UpdateStatus` addresses), its labels, the
embedded Pod-name reference `Spec.Pod.Name`, and its `Status.Phase`. -/
structure PodVolumeRestore where
  name : String
  labels : List (String × String)
  podName : String
  phase : PodVolumeRestorePhase
deriving DecidableEq

/-- Environment of one `Execute` invocation: the response of the ConfigMap
List call (the `Data` mapping of each returned ConfigMap, as Go iterates
it), and injected outcomes for the PodVolumeRestore List and UpdateStatus
calls. -/
structure Env where
  configMapItems : Except Unit (List (List (String × String)))
  listPVROk : Bool
  updatePVROk : Bool

/-- Go map assignment on an association list: overwrite an existing binding
in place, otherwise append. -/
def upsert (k v : String) : List (String × String) → List (String × String)
  | [] => [(k, v)]
  | (k', v') :: rest => if k = k' then (k, v) :: rest else (k', v') :: upsert k v rest

/-- `getConfigMapDataByLabel`: list ConfigMaps by label selector; error when
the call fails or no ConfigMap matches; otherwise aggregate all `Data`
entries last-write-wins. -/
def getConfigMapDataByLabel (env : Env) (labelSelector : String) :
    Except Unit (List (String × String)) :=
  match env.configMapItems with
  | .error e => .error e
  | .ok items =>
    if items.length = 0 then .error ()
    else .ok (items.foldl (fun acc cm => cm.foldl (fun a kv => upsert kv.1 kv.2 a) acc) [])

/-- The label selector `triggerPodVolumeRestore` builds matches records
carrying both correlation labels. -/
def matchesSelector (restoreName restoreUID : String) (r : PodVolumeRestore) : Bool :=
  (List.lookup "velero.io/restore-name" r.labels == some restoreName) &&
  (List.lookup "velero.io/restore-uid" r.labels == some restoreUID)

/-- `pvrCopy.Status.Phase = velerov1api.PodVolumeRestorePhaseInProgress`. -/
def setInProgress (r : PodVolumeRestore) : PodVolumeRestore :=
  { r with phase := PodVolumeRestorePhase.inProgress }

/-- `UpdateStatus` against the store: replace the record of the same name. -/
def updateStatus (store : List PodVolumeRestore) (r : PodVolumeRestore) :
    List PodVolumeRestore :=
  store.map (fun x => if x.name = r.name then r else x)

/-- The update loop of `triggerPodVolumeRestore` over the listed records:
each record whose embedded Pod name matches is set in-progress and
persisted; an update failure aborts the loop with the error, keeping the
updates already persisted. -/
def runUpdates (env : Env) (podName : String) :
    List PodVolumeRestore → List PodVolumeRestore → Option String × List PodVolumeRestore
  | [], store => (none, store)
  | pvr :: rest, store =>
    if pvr.podName = podName then
      if env.updatePVROk then
        runUpdates env podName rest (updateStatus store (setInProgress pvr))
      else (some "failed to update PodVolumeRestore status", store)
    else runUpdates env podName rest store

/-- `triggerPodVolumeRestore` of the plugin, as a transformer of the
PodVolumeRestore store of the velero namespace: for a Pod, read the
correlation labels, list the matching records, and advance each record
whose embedded Pod name equals this Pod's name.  Returns the error that
`Execute` logs and swallows, if any. -/
def triggerPodVolumeRestore (env : Env) (modifiedItem : Json)
    (store : List PodVolumeRestore) : Option String × List PodVolumeRestore :=
  if kindOf modifiedItem = "Pod" then
    let name := nameOf modifiedItem
    match labelsOf modifiedItem with
    | none => (some "pod labels are nil", store)
    | some ls =>
      let restoreName := (List.lookup "velero.io/restore-name" ls).getD ""
      let restoreUID := (List.lookup "velero.io/restore-uid" ls).getD ""
      if restoreName = "" ∨ restoreUID = "" then
        (some "missing restore-name or restore-uid in pod labels", store)
      else if env.listPVROk = false then
        (some "failed to list PodVolumeRestores", store)
      else
        runUpdates env name (store.filter (matchesSelector restoreName restoreUID)) store
  else (none, store)

/-! ### Properties of the key order -/

theorem keyLtL_irrefl : ∀ l, keyLtL l l = false := by
  intro l
  induction l with
  | nil => rfl
  | cons a as ih => simp [keyLtL, ih]

theorem keyLtL_trans : ∀ a b c, keyLtL a b = true → keyLtL b c = true → keyLtL a c = true := by
  intro a
  induction a with
  | nil =>
    intro b c hab hbc
    cases b with
    | nil => simp [keyLtL] at hab
    | cons y bs =>
      cases c with
      | nil => simp [keyLtL] at hbc
      | cons z cs => rfl
  | cons x as ih =>
    intro b c hab hbc
    cases b with
    | nil => simp [keyLtL] at hab
    | cons y bs =>
      cases c with
      | nil => simp [keyLtL] at hbc
      | cons z cs =>
        simp only [keyLtL] at hab hbc ⊢
        split_ifs at hab hbc ⊢ <;>
          first
          | rfl
          | exact Bool.noConfusion hab
          | exact Bool.noConfusion hbc
          | (exfalso; omega)
          | exact ih bs cs hab hbc

theorem keyLtL_conn : ∀ a b, keyLtL a b = false → keyLtL b a = false → a = b := by
  intro a
  induction a with
  | nil =>
    intro b hab _
    cases b with
    | nil => rfl
    | cons y bs => simp [keyLtL] at hab
  | cons x as ih =>
    intro b hab hba
    cases b with
    | nil => simp [keyLtL] at hba
    | cons y bs =>
      simp only [keyLtL] at hab hba
      by_cases h₁ : x.toNat < y.toNat
      · simp [h₁] at hab
      · by_cases h₂ : y.toNat < x.toNat
        · simp [h₁, h₂] at hba
        · simp [h₁, h₂] at hab hba
          have hxy : x = y := by
            have hn : x.toNat = y.toNat := by omega
            exact Char.ext (UInt32.ext hn)
          rw [hxy, ih bs hab hba]

theorem keyLt_irrefl (a : String) : keyLt a a = false := keyLtL_irrefl a.data

theorem keyLt_trans {a b c : String} (h₁ : keyLt a b = true) (h₂ : keyLt b c = true) :
    keyLt a c = true := keyLtL_trans a.data b.data c.data h₁ h₂

theorem keyLt_conn {a b : String} (h₁ : keyLt a b = false) (h₂ : keyLt b a = false) : a = b := by
  cases a with
  | mk da =>
    cases b with
    | mk db =>
      have := keyLtL_conn da db h₁ h₂
      rw [this]

theorem keyLt_asymm {a b : String} (h : keyLt a b = true) : keyLt b a = false := by
  by_contra hc
  have hba : keyLt b a = true := by
    cases hh : keyLt b a
    · exact absurd hh hc
    · rfl
  have := keyLt_trans h hba
  rw [keyLt_irrefl] at this
  cases this

theorem keyLt_ne {a b : String} (h : keyLt a b = true) : a ≠ b := by
  intro he
  rw [he, keyLt_irrefl] at h
  cases h

/-! ### Properties of sorted insertion -/

/-- Canonical shape of an object's member list: keys strictly ascending in
the marshalling order, all values canonical. -/
def MemsCanon (ms : List (String × Json)) : Prop :=
  List.Pairwise (fun a b => keyLt a.1 b.1 = true) ms ∧ ∀ kv ∈ ms, kv.2.wfB = true

theorem insertSorted_append (k : String) (v : Json) :
    ∀ acc : List (String × Json), (∀ kv ∈ acc, keyLt kv.1 k = true) →
      insertSorted k v acc = acc ++ [(k, v)] := by
  intro acc
  induction acc with
  | nil => intro _; rfl
  | cons kv rest ih =>
    intro h
    have hk : keyLt kv.1 k = true := h kv (by simp)
    obtain ⟨k', v'⟩ := kv
    simp only [insertSorted]
    rw [if_neg, if_neg]
    · rw [ih (fun x hx => h x (by simp [hx]))]
      simp
    · exact (keyLt_ne hk).symm
    · simp [keyLt_asymm hk]

theorem mem_insertSorted (k : String) (v : Json) :
    ∀ l x, x ∈ insertSorted k v l → x = (k, v) ∨ x ∈ l := by
  intro l
  induction l with
  | nil => intro x hx; simp [insertSorted] at hx; exact Or.inl hx
  | cons kv rest ih =>
    intro x hx
    obtain ⟨k', v'⟩ := kv
    simp only [insertSorted] at hx
    split_ifs at hx with h₁ h₂
    · rcases List.mem_cons.mp hx with h | h
      · exact Or.inl h
      · exact Or.inr h
    · rcases List.mem_cons.mp hx with h | h
      · exact Or.inl h
      · exact Or.inr (by simp [h])
    · rcases List.mem_cons.mp hx with h | h
      · exact Or.inr (by simp [h])
      · rcases ih x h with h' | h'
        · exact Or.inl h'
        · exact Or.inr (by simp [h'])

theorem lookup_insertSorted_self (k : String) (v : Json) :
    ∀ l, List.lookup k (insertSorted k v l) = some v := by
  intro l
  induction l with
  | nil => simp [insertSorted, List.lookup]
  | cons kv rest ih =>
    obtain ⟨k', v'⟩ := kv
    simp only [insertSorted]
    split_ifs with h₁ h₂
    · simp [List.lookup]
    · simp [List.lookup]
    · have hne : (k == k') = false := beq_eq_false_iff_ne.mpr h₂
      simp [List.lookup, hne, ih]

theorem lookup_insertSorted_ne (k k' : String) (v : Json) (hne : k' ≠ k) :
    ∀ l, List.lookup k' (insertSorted k v l) = List.lookup k' l := by
  intro l
  have hb : (k' == k) = false := beq_eq_false_iff_ne.mpr hne
  induction l with
  | nil => simp [insertSorted, List.lookup, hb]
  | cons kv rest ih =>
    obtain ⟨k₀, v₀⟩ := kv
    simp only [insertSorted]
    split_ifs with h₁ h₂
    · simp [List.lookup, hb]
    · subst h₂
      simp [List.lookup, hb]
    · by_cases hk : k' = k₀
      · have hb₀ : (k' == k₀) = true := beq_iff_eq.mpr hk
        simp [List.lookup, hb₀]
      · have hb₀ : (k' == k₀) = false := beq_eq_false_iff_ne.mpr hk
        simp [List.lookup, hb₀, ih]

theorem insertSorted_canon (k : String) (v : Json) (hv : v.wfB = true) :
    ∀ ms, MemsCanon ms → MemsCanon (insertSorted k v ms) := by
  intro ms
  induction ms with
  | nil =>
    intro _
    constructor
    · simp [insertSorted]
    · intro kv hkv
      simp [insertSorted] at hkv
      rw [hkv]
      exact hv
  | cons kv rest ih =>
    intro ⟨hp, hw⟩
    obtain ⟨k₀, v₀⟩ := kv
    rw [List.pairwise_cons] at hp
    obtain ⟨hhead, hrest⟩ := hp
    simp only [insertSorted]
    split_ifs with h₁ h₂
    · constructor
      · rw [List.pairwise_cons]
        constructor
        · intro x hx
          rcases List.mem_cons.mp hx with h | h
          · rw [h]; exact h₁
          · exact keyLt_trans h₁ (hhead x h)
        · rw [List.pairwise_cons]
          exact ⟨hhead, hrest⟩
      · intro x hx
        rcases List.mem_cons.mp hx with h | h
        · rw [h]; exact hv
        · exact hw x h
    · subst h₂
      constructor
      · rw [List.pairwise_cons]
        exact ⟨hhead, hrest⟩
      · intro x hx
        rcases List.mem_cons.mp hx with h | h
        · rw [h]; exact hv
        · exact hw x (by simp [h])
    · have hlt : keyLt k₀ k = true := by
        cases hh : keyLt k₀ k with
        | true => rfl
        | false =>
          have hkk : keyLt k k₀ = false := by
            cases hg : keyLt k k₀ with
            | true => exact absurd hg h₁
            | false => rfl
          exact absurd (keyLt_conn hkk hh) h₂
      have ihc := ih ⟨hrest, fun x hx => hw x (by simp [hx])⟩
      constructor
      · rw [List.pairwise_cons]
        constructor
        · intro x hx
          rcases mem_insertSorted k v rest x hx with h | h
          · rw [h]; exact hlt
          · exact hhead x h
        · exact ihc.1
      · intro x hx
        rcases List.mem_cons.mp hx with h | h
        · rw [h]; exact hw (k₀, v₀) (by simp)
        · exact ihc.2 x h

theorem wfMems_canon : ∀ ms, Json.wfMems ms = true ↔ MemsCanon ms := by
  intro ms
  induction ms with
  | nil =>
    simp [Json.wfMems, MemsCanon]
  | cons kv rest ih =>
    cases rest with
    | nil =>
      simp [Json.wfMems, MemsCanon]
    | cons kv₂ rest₂ =>
      rw [show Json.wfMems (kv :: kv₂ :: rest₂)
          = (kv.2.wfB && keyLt kv.1 kv₂.1 && Json.wfMems (kv₂ :: rest₂)) from rfl]
      constructor
      · intro h
        rw [Bool.and_eq_true, Bool.and_eq_true] at h
        obtain ⟨⟨hw, hk⟩, hrest⟩ := h
        have hc := ih.mp hrest
        constructor
        · rw [List.pairwise_cons]
          constructor
          · intro x hx
            rcases List.mem_cons.mp hx with h' | h'
            · rw [h']; exact hk
            · have := (List.pairwise_cons.mp hc.1).1 x h'
              exact keyLt_trans hk this
          · exact hc.1
        · intro x hx
          rcases List.mem_cons.mp hx with h' | h'
          · rw [h']; exact hw
          · exact hc.2 x h'
      · intro ⟨hp, hw⟩
        rw [Bool.and_eq_true, Bool.and_eq_true]
        refine ⟨⟨hw kv (by simp), ?_⟩, ?_⟩
        · exact (List.pairwise_cons.mp hp).1 kv₂ (by simp)
        · exact ih.mpr ⟨(List.pairwise_cons.mp hp).2, fun x hx => hw x (by simp [hx])⟩

/-! ### The serializer/parser round trip -/

theorem parseStrBody_esc : ∀ (s rest : List Char),
    parseStrBody (escS s ++ '"' :: rest) = some (s, rest) := by
  intro s
  induction s with
  | nil =>
    intro rest
    simp only [escS, List.nil_append]
    rw [parseStrBody.eq_def]
    simp
  | cons c cs ih =>
    intro rest
    by_cases hc : c = '"' ∨ c = '\\'
    · rw [show escS (c :: cs) = '\\' :: c :: escS cs from by rw [escS, if_pos hc]]
      simp only [List.cons_append]
      rw [parseStrBody.eq_def]
      simp [hc, ih]
    · rw [show escS (c :: cs) = c :: escS cs from by rw [escS, if_neg hc]]
      simp only [List.cons_append]
      rw [parseStrBody.eq_def]
      have h₁ : ¬(c = '"') := fun h => hc (Or.inl h)
      have h₂ : ¬(c = '\\') := fun h => hc (Or.inr h)
      simp [h₁, h₂, ih]

theorem serMems_ne_nil_head : ∀ (kv : String × Json) (ms : List (String × Json)),
    serMems (kv :: ms) = '"' :: (escS kv.1.data ++ '"' :: ':' :: serL kv.2
      ++ (if ms.isEmpty then [] else ',' :: serMems ms)) := by
  intro kv ms
  cases ms with
  | nil => simp [serMems]
  | cons kv₂ rest => simp [serMems]

theorem parseVal_serL : ∀ fuel : Nat,
    (∀ (j : Json) (rest : List Char), Json.wfB j = true → (serL j).length < fuel →
      parseVal fuel (serL j ++ rest) = some (j, rest)) ∧
    (∀ (ms acc : List (String × Json)) (rest : List Char), ms ≠ [] → MemsCanon ms →
      (∀ kv ∈ acc, ∀ kv' ∈ ms, keyLt kv.1 kv'.1 = true) →
      (serMems ms).length < fuel →
      parseMembers fuel (serMems ms ++ '\x7d' :: rest) acc
        = some (Json.obj (acc ++ ms), rest)) := by
  intro fuel
  induction fuel with
  | zero =>
    constructor
    · intro j rest _ hlen; exact absurd hlen (Nat.not_lt_zero _)
    · intro ms acc rest _ _ _ hlen; exact absurd hlen (Nat.not_lt_zero _)
  | succ f ih =>
    constructor
    · intro j rest hwf hlen
      cases j with
      | str s =>
        cases s with
        | mk sd =>
          have hsh : serL (Json.str ⟨sd⟩) ++ rest = '"' :: (escS sd ++ '"' :: rest) := by
            simp [serL]
          rw [hsh]
          rw [parseVal.eq_def]
          simp [parseStrBody_esc]
      | obj ms =>
        cases ms with
        | nil =>
          have hsh : serL (Json.obj []) ++ rest = '\x7b' :: '\x7d' :: rest := by
            simp [serL, serMems]
          rw [hsh]
          rw [parseVal.eq_def]
          simp
        | cons kv ms' =>
          have hT := serMems_ne_nil_head kv ms'
          have hmem := ih.2 (kv :: ms') [] rest (by simp)
            ((wfMems_canon _).mp (by simpa [Json.wfB] using hwf))
            (by simp)
            (by
              simp only [serL, List.length_cons, List.length_append] at hlen
              omega)
          rw [show serL (Json.obj (kv :: ms')) ++ rest
              = '\x7b' :: (serMems (kv :: ms') ++ '\x7d' :: rest) from by simp [serL]]
          rw [hT] at hmem ⊢
          simp only [List.cons_append] at hmem ⊢
          rw [parseVal.eq_def]
          simpa using hmem
    · intro ms acc rest hne hcanon hless hlen
      cases ms with
      | nil => exact absurd rfl hne
      | cons kv ms' =>
        obtain ⟨k, v⟩ := kv
        cases k with
        | mk kd =>
          have hhead : keyLt ⟨kd⟩ ⟨kd⟩ = false := keyLt_irrefl _
          have hwfv : v.wfB = true := hcanon.2 (⟨kd⟩, v) (by simp)
          have hacc : insertSorted ⟨kd⟩ v acc = acc ++ [(⟨kd⟩, v)] :=
            insertSorted_append _ _ acc (fun x hx => hless x hx (⟨kd⟩, v) (by simp))
          cases ms' with
          | nil =>
            have hsh : serMems [(⟨kd⟩, v)] ++ '\x7d' :: rest
                = '"' :: (escS kd ++ '"' :: ':' :: (serL v ++ '\x7d' :: rest)) := by
              simp [serMems]
            rw [hsh]
            have hv := ih.1 v ('\x7d' :: rest) hwfv (by
              simp only [serMems, List.length_cons, List.length_append] at hlen
              omega)
            rw [parseMembers.eq_def]
            simp [parseStrBody_esc, hv, hacc]
          | cons kv₂ ms'' =>
            have hsh : serMems ((⟨kd⟩, v) :: kv₂ :: ms'') ++ '\x7d' :: rest
                = '"' :: (escS kd ++ '"' :: ':' :: (serL v
                    ++ ',' :: (serMems (kv₂ :: ms'') ++ '\x7d' :: rest))) := by
              simp [serMems]
            rw [hsh]
            have hlen' : (escS kd).length + (serL v).length + 4
                + (serMems (kv₂ :: ms'')).length < f + 1 := by
              rw [show serMems ((⟨kd⟩, v) :: kv₂ :: ms'')
                  = ('"' :: escS (String.mk kd).data ++ '"' :: ':' :: serL v)
                    ++ ',' :: serMems (kv₂ :: ms'') from rfl] at hlen
              simp only [List.length_cons, List.length_append] at hlen
              omega
            have hv := ih.1 v (',' :: (serMems (kv₂ :: ms'') ++ '\x7d' :: rest)) hwfv
              (by omega)
            have hcanon' : MemsCanon (kv₂ :: ms'') :=
              ⟨(List.pairwise_cons.mp hcanon.1).2, fun x hx => hcanon.2 x (by simp [hx])⟩
            have hless' : ∀ x ∈ acc ++ [(⟨kd⟩, v)], ∀ kv' ∈ kv₂ :: ms'',
                keyLt x.1 kv'.1 = true := by
              intro x hx kv' hkv'
              rcases List.mem_append.mp hx with h | h
              · exact hless x h kv' (by simp [hkv'])
              · have hx' : x = (⟨kd⟩, v) := by simpa using h
                rw [hx']
                exact (List.pairwise_cons.mp hcanon.1).1 kv' hkv'
            have hrec := ih.2 (kv₂ :: ms'') (acc ++ [(⟨kd⟩, v)]) rest (by simp)
              hcanon' hless' (by omega)
            rw [parseMembers.eq_def]
            simp [parseStrBody_esc, hv, hacc, hrec]

theorem parse_serL (j : Json) (h : Json.wfB j = true) : parse (serL j) = some j := by
  unfold parse
  have hp := (parseVal_serL ((serL j).length + 1)).1 j [] h (by omega)
  rw [List.append_nil] at hp
  rw [hp]

theorem parseVal_wf : ∀ fuel : Nat,
    (∀ (l : List Char) (j : Json) (rem : List Char),
      parseVal fuel l = some (j, rem) → Json.wfB j = true) ∧
    (∀ (l : List Char) (acc : List (String × Json)) (j : Json) (rem : List Char),
      MemsCanon acc → parseMembers fuel l acc = some (j, rem) → Json.wfB j = true) := by
  intro fuel
  induction fuel with
  | zero =>
    constructor
    · intro l j rem hp; simp [parseVal] at hp
    · intro l acc j rem _ hp; simp [parseMembers] at hp
  | succ f ih =>
    constructor
    · intro l j rem hp
      cases l with
      | nil =>
        rw [parseVal.eq_5 _ _ (by intro r h; cases h) (by intro r h; cases h)] at hp
        cases hp
      | cons c rest =>
        by_cases hq : c = '"'
        · subst hq
          rw [parseVal.eq_2] at hp
          split at hp
          · cases hp
          · cases hp
            rfl
        · by_cases hb : c = '\x7b'
          · subst hb
            cases rest with
            | nil =>
              rw [parseVal.eq_4 _ _ (by intro r h; cases h)] at hp
              exact ih.2 _ [] j rem ⟨List.Pairwise.nil, by simp⟩ hp
            | cons c₂ rest₂ =>
              by_cases hc₂ : c₂ = '\x7d'
              · subst hc₂
                rw [parseVal.eq_3] at hp
                cases hp
                rfl
              · rw [parseVal.eq_4 _ _
                  (by intro r h; injection h with h₁ _; exact hc₂ h₁)] at hp
                exact ih.2 _ [] j rem ⟨List.Pairwise.nil, by simp⟩ hp
          · rw [parseVal.eq_5 _ _
              (by intro r h; injection h with h₁ _; exact hq h₁)
              (by intro r h; injection h with h₁ _; exact hb h₁)] at hp
            cases hp
    · intro l acc j rem hcanon hp
      cases l with
      | nil =>
        rw [parseMembers.eq_3 _ _ _ (by intro r h; cases h)] at hp
        cases hp
      | cons c rest =>
        by_cases hq : c = '"'
        · subst hq
          rw [parseMembers.eq_2] at hp
          split at hp
          · cases hp
          · split at hp
            · split at hp
              · cases hp
              · rename_i heqv
                split at hp
                · exact ih.2 _ _ j rem
                    (insertSorted_canon _ _ (ih.1 _ _ _ heqv) _ hcanon) hp
                · cases hp
                  simp only [Json.wfB]
                  exact (wfMems_canon _).mpr
                    (insertSorted_canon _ _ (ih.1 _ _ _ heqv) _ hcanon)
                · cases hp
            · cases hp
        · rw [parseMembers.eq_3 _ _ _
            (by intro r h; injection h with h₁ _; exact hq h₁)] at hp
          cases hp

theorem parse_wf (t : List Char) (j : Json) (h : parse t = some j) : Json.wfB j = true := by
  unfold parse at h
  split at h
  · rename_i hsome
    cases h
    exact (parseVal_wf _).1 _ _ _ hsome
  · cases h

/-- The fixed rule-source selector of `Execute`. -/
def ruleSelector : String := "agoracalyce.io/replace-pattern=RestoreItemAction"

/-- `Execute` of the plugin: fetch the rules (fail-open on fetch error),
substitute, then advance the volume-restore records, swallowing any error
of that last stage. -/
def Execute (env : Env) (store : List PodVolumeRestore) (item : Json) :
    Except Unit Json × List PodVolumeRestore :=
  match getConfigMapDataByLabel env ruleSelector with
  | .error _ => (.ok item, store)
  | .ok patterns =>
    match replacePatternAction item patterns with
    | .error e => (.error e, store)
    | .ok output =>
      let res := triggerPodVolumeRestore env output store
      (.ok output, res.2)

/-! ### Plugin-level helper lemmas -/

theorem lookup_mem {l : List (String × Json)} {k : String} {v : Json}
    (h : List.lookup k l = some v) : (k, v) ∈ l := by
  induction l with
  | nil => cases h
  | cons kv rest ih =>
    obtain ⟨k₀, v₀⟩ := kv
    rw [List.lookup] at h
    by_cases hk : k = k₀
    · rw [beq_iff_eq.mpr hk] at h
      cases h
      simp [hk]
    · rw [beq_eq_false_iff_ne.mpr hk] at h
      simp [ih h]

theorem extract_serL (item : Json) (h : Json.wfB item = true) :
    extractMetadataName (serL item) = nameOf item := by
  unfold extractMetadataName
  rw [parse_serL item h]
  cases item with
  | str s => rfl
  | obj ms => rfl

/-- Behaviour of the Pod branch of `replacePatternAction` whenever the
substituted text still parses to an object whose `metadata` member is an
object: the restoration step overwrites `metadata.name` with the name
captured from the original serialized form (whatever that capture
produced), and the final unmarshal succeeds. -/
theorem rpa_pod_restore (item : Json) (patterns : List (String × String))
    (ms mm : List (String × Json))
    (hkind : kindOf item = "Pod")
    (hp : parse (substitutedText item patterns) = some (Json.obj ms))
    (hm : List.lookup "metadata" ms = some (Json.obj mm)) :
    replacePatternAction item patterns = Except.ok (Json.obj
      (insertSorted "metadata"
        (Json.obj (insertSorted "name"
          (Json.str (extractMetadataName (serL item))) mm)) ms)) := by
  have hft : finalText item patterns = serL (Json.obj
      (insertSorted "metadata"
        (Json.obj (insertSorted "name"
          (Json.str (extractMetadataName (serL item))) mm)) ms)) := by
    unfold finalText
    rw [if_pos hkind]
    unfold restoreMetadataName
    simp only [hp, hm]
  have hcanon : MemsCanon ms := (wfMems_canon ms).mp (by
    have := parse_wf _ _ hp
    simpa [Json.wfB] using this)
  have hmmwf : Json.wfB (Json.obj mm) = true := hcanon.2 _ (lookup_mem hm)
  have hmmcanon : MemsCanon mm := (wfMems_canon mm).mp (by simpa [Json.wfB] using hmmwf)
  have hinner : MemsCanon (insertSorted "name"
      (Json.str (extractMetadataName (serL item))) mm) :=
    insertSorted_canon _ _ (by simp [Json.wfB]) _ hmmcanon
  have hinnerwf : Json.wfB (Json.obj (insertSorted "name"
      (Json.str (extractMetadataName (serL item))) mm)) = true := by
    simp only [Json.wfB]
    exact (wfMems_canon _).mpr hinner
  have houter : MemsCanon (insertSorted "metadata"
      (Json.obj (insertSorted "name"
        (Json.str (extractMetadataName (serL item))) mm)) ms) :=
    insertSorted_canon _ _ hinnerwf _ hcanon
  unfold replacePatternAction
  rw [hft, parse_serL _ (by
    simp only [Json.wfB]
    exact (wfMems_canon _).mpr houter)]

/-- Whether the deserialization of the substituted (and, for a Pod,
name-restored) text into an unstructured object fails. -/
def deserializationFails (item : Json) (patterns : List (String × String)) : Bool :=
  match parse (finalText item patterns) with
  | some (Json.obj _) => false
  | _ => true

theorem rpa_error_iff (item : Json) (patterns : List (String × String)) :
    replacePatternAction item patterns = Except.error ()
      ↔ deserializationFails item patterns = true := by
  unfold replacePatternAction deserializationFails
  cases hp : parse (finalText item patterns) with
  | none => simp
  | some j =>
    cases j with
    | str s => simp
    | obj ms => simp

/-! ### Claim C1: Pod name preservation -/

/-- The raw `metadata.name` member of a document, if any. -/
def rawNameOf (j : Json) : Option Json :=
  match j with
  | .obj ms =>
    match List.lookup "metadata" ms with
    | some (.obj mm) => List.lookup "name" mm
    | _ => none
  | _ => none

def c1pod : Json := .obj [("kind", .str "Pod"), ("metadata", .obj [("name", .str "web-7")])]

def c1rules : List (String × String) := [("\"metadata\"", "\"metadataX\"")]

def c1out : Json := .obj [("kind", .str "Pod"), ("metadataX", .obj [("name", .str "web-7")])]

/-- C1 counterexample: a rule whose pattern rewrites the serialized
`"metadata"` key makes `replacePatternAction` return without error with a
Pod whose `metadata.name` differs from the input's (the restoration step
finds no `metadata` object to write into), refuting the claim for arbitrary
rule sets. -/
theorem c1_name_not_preserved_counterexample :
    replacePatternAction c1pod c1rules = Except.ok c1out ∧ nameOf c1out ≠ nameOf c1pod :=
  ⟨by decide, by decide⟩

/-- C1 (amended): for every canonical Pod resource and every rule set whose
substitution leaves the serialized text parseable as a JSON object with an
object-valued `metadata` member, `replacePatternAction` returns without
error and the returned resource's `metadata.name` (read as a string, empty
when absent or non-string) equals the input's, including when a rule's
pattern or replacement equals the name. -/
theorem c1_pod_name_preserved (item : Json) (patterns : List (String × String))
    (ms mm : List (String × Json))
    (hwf : Json.wfB item = true)
    (hkind : kindOf item = "Pod")
    (hp : parse (substitutedText item patterns) = some (Json.obj ms))
    (hm : List.lookup "metadata" ms = some (Json.obj mm)) :
    ∃ out, replacePatternAction item patterns = Except.ok out
      ∧ nameOf out = nameOf item := by
  refine ⟨_, rpa_pod_restore item patterns ms mm hkind hp hm, ?_⟩
  rw [← extract_serL item hwf]
  unfold nameOf
  simp only [lookup_insertSorted_self]

def c1wpod : Json := .obj [("kind", .str "Pod"),
  ("metadata", .obj [("labels", .obj [("app", .str "web-7-demo")]), ("name", .str "web-7")])]

def c1wms : List (String × Json) := [("kind", .str "Pod"),
  ("metadata", .obj [("labels", .obj [("app", .str "db-7-demo")]), ("name", .str "db-7")])]

def c1wmm : List (String × Json) :=
  [("labels", .obj [("app", .str "db-7-demo")]), ("name", .str "db-7")]

/-- C1 witness: the spec's Example 1 discharges the amended theorem's
hypotheses (rule `web-7 ↦ db-7` on a Pod named `web-7`). -/
theorem c1_pod_name_preserved_witness :
    ∃ out, replacePatternAction c1wpod [("web-7", "db-7")] = Except.ok out
      ∧ nameOf out = nameOf c1wpod :=
  c1_pod_name_preserved c1wpod [("web-7", "db-7")] c1wms c1wmm
    (by decide) (by decide) (by decide) (by decide)

/-! ### Claim C2: behaviour when name extraction fails -/

def c2pod : Json := .obj [("kind", .str "Pod"), ("metadata", .obj [("name", .obj [])])]

def c2out : Json := .obj [("kind", .str "Pod"), ("metadata", .obj [("name", .str "")])]

/-- C2 counterexample: on a Pod whose `metadata.name` is not a string the
extraction yields the empty string, yet the restoration step is NOT
skipped: `replacePatternAction` overwrites `metadata.name` with `""`,
refuting the claim that the mutated document's name is left alone. -/
theorem c2_restore_not_skipped_counterexample :
    extractMetadataName (serL c2pod) = "" ∧
    replacePatternAction c2pod [] = Except.ok c2out ∧
    rawNameOf c2out ≠ rawNameOf c2pod :=
  ⟨by decide, by decide, by decide⟩

/-- C2 (amended): when extraction yields the empty string the failed
extraction is indeed not an error, but the restoration step still runs:
whenever the substituted text parses as an object with an object-valued
`metadata` member, `replacePatternAction` succeeds and writes the empty
string into the mutated document's `metadata.name`. -/
theorem c2_empty_extraction_overwrites (item : Json) (patterns : List (String × String))
    (ms mm : List (String × Json))
    (hkind : kindOf item = "Pod")
    (hext : extractMetadataName (serL item) = "")
    (hp : parse (substitutedText item patterns) = some (Json.obj ms))
    (hm : List.lookup "metadata" ms = some (Json.obj mm)) :
    ∃ out, replacePatternAction item patterns = Except.ok out
      ∧ rawNameOf out = some (Json.str "") := by
  refine ⟨_, rpa_pod_restore item patterns ms mm hkind hp hm, ?_⟩
  unfold rawNameOf
  simp only [lookup_insertSorted_self, hext]

def c2wpod : Json := .obj [("kind", .str "Pod"), ("metadata", .obj [])]

def c2wms : List (String × Json) := [("kind", .str "Pod"), ("metadata", .obj [])]

/-- C2 witness: a Pod with no `metadata.name` member at all discharges the
amended theorem's hypotheses with an empty rule set. -/
theorem c2_empty_extraction_overwrites_witness :
    ∃ out, replacePatternAction c2wpod [] = Except.ok out
      ∧ rawNameOf out = some (Json.str "") :=
  c2_empty_extraction_overwrites c2wpod [] c2wms []
    (by decide) (by decide) (by decide) (by decide)

/-! ### Claim C3: fail-open on missing rules -/

def c3env : Env := ⟨.ok [[]], true, true⟩

def c3pod : Json := .obj [("kind", .str "Pod"), ("metadata", .obj [
  ("labels", .obj [("velero.io/restore-name", .str "r1"),
                   ("velero.io/restore-uid", .str "u1")]),
  ("name", .str "p1")])]

def c3store : List PodVolumeRestore :=
  [⟨"pvr1", [("velero.io/restore-name", "r1"), ("velero.io/restore-uid", "u1")],
    "p1", PodVolumeRestorePhase.new⟩]

/-- C3 counterexample: a ConfigMap that matches the selector but carries no
data makes the fetch yield an empty rule mapping (`ok []`), and `Execute`
then still runs the whole pipeline: the volume-restore store IS updated,
refuting the claim that no store update happens when the fetch yields no
rules. -/
theorem c3_empty_rules_counterexample :
    getConfigMapDataByLabel c3env ruleSelector = Except.ok [] ∧
    (Execute c3env c3store c3pod).1 = Except.ok c3pod ∧
    (Execute c3env c3store c3pod).2 ≠ c3store :=
  ⟨by decide, by decide, by decide⟩

/-- C3 (amended): when the ConfigMap fetch fails or finds no ConfigMap (the
fetch returns an error), `Execute` returns the input resource itself with
no error, performing no substitution and no store update.  (A fetch that
finds ConfigMaps whose data is empty proceeds through the pipeline
instead.) -/
theorem c3_fetch_error_fail_open (env : Env) (store : List PodVolumeRestore) (item : Json)
    (h : getConfigMapDataByLabel env ruleSelector = Except.error ()) :
    Execute env store item = (Except.ok item, store) := by
  unfold Execute
  rw [h]

/-- C3 witness: a failing ConfigMap List call discharges the amended
theorem's hypothesis. -/
theorem c3_fetch_error_fail_open_witness :
    Execute ⟨Except.error (), true, true⟩ c3store c3pod = (Except.ok c3pod, c3store) :=
  c3_fetch_error_fail_open ⟨Except.error (), true, true⟩ c3store c3pod (by decide)

/-! ### Claim C10: the two revisions of replacePatternAction -/

def c10pod : Json := .obj [("kind", .str "Pod"), ("metadata", .obj [("name", .str "web-7")])]

/-- C10 counterexample: on a Pod with a rule matching its name the old
revision rewrites `metadata.name` while the current one restores it, so
the two `replacePatternAction` implementations disagree. -/
theorem c10_revisions_differ_counterexample :
    replacePatternActionPart0 c10pod [("web-7", "db-7")]
      ≠ replacePatternAction c10pod [("web-7", "db-7")] := by
  decide

/-- C10 (amended): the two revisions of `replacePatternAction` produce the
same mutated resource on every non-Pod resource (they differ exactly in the
Pod-name capture/restore stage). -/
theorem c10_revisions_agree_non_pod (item : Json) (patterns : List (String × String))
    (h : kindOf item ≠ "Pod") :
    replacePatternActionPart0 item patterns = replacePatternAction item patterns := by
  unfold replacePatternActionPart0 replacePatternAction finalText
  rw [if_neg h]

def c10cm : Json := .obj [("data", .obj [("bucket", .str "staging-bucket")]),
  ("kind", .str "ConfigMap")]

/-- C10 witness: a ConfigMap resource discharges the amended theorem's
hypothesis. -/
theorem c10_revisions_agree_non_pod_witness :
    replacePatternActionPart0 c10cm [("staging-bucket", "prod-bucket")]
      = replacePatternAction c10cm [("staging-bucket", "prod-bucket")] :=
  c10_revisions_agree_non_pod c10cm [("staging-bucket", "prod-bucket")] (by decide)

/-! ### Claim C5: no exemption for non-Pod resources -/

theorem replCore_singleton (a : Char) (r : List Char) :
    ∀ (fuel : Nat) (s : List Char), s.length ≤ fuel →
      replCore [a] r fuel s = s.flatMap (fun c => if c = a then r else [c]) := by
  intro fuel
  induction fuel with
  | zero =>
    intro s hs
    cases s with
    | nil => rfl
    | cons c rest => simp at hs
  | succ f ih =>
    intro s hs
    cases s with
    | nil => rfl
    | cons c rest =>
      rw [show replCore [a] r (f + 1) (c :: rest)
          = if [a].isPrefixOf (c :: rest)
            then r ++ replCore [a] r f (rest.drop ([a].length - 1))
            else c :: replCore [a] r f rest from rfl]
      have hpre : [a].isPrefixOf (c :: rest) = (a == c) := by
        simp [List.isPrefixOf]
      rw [hpre]
      by_cases hca : a = c
      · rw [if_pos (by rw [hca]; simp)]
        rw [show List.drop ([a].length - 1) rest = rest from by simp]
        rw [ih rest (by simpa using hs)]
        subst hca
        simp
      · rw [if_neg (by simpa using hca)]
        rw [ih rest (by simpa using hs)]
        have : ¬(c = a) := fun h => hca h.symm
        simp [this]

theorem replaceAll_singleton (a : Char) (r : List Char) (s : List Char) :
    replaceAll s [a] r = s.flatMap (fun c => if c = a then r else [c]) := by
  unfold replaceAll
  rw [if_neg (by simp)]
  exact replCore_singleton a r s.length s (Nat.le_refl _)

theorem not_mem_flatMap_subst (a : Char) (r : List Char) (ha : a ∉ r) (s : List Char) :
    a ∉ s.flatMap (fun c => if c = a then r else [c]) := by
  intro hmem
  rw [List.mem_flatMap] at hmem
  obtain ⟨c, _, hc⟩ := hmem
  by_cases hca : c = a
  · rw [if_pos hca] at hc
    exact ha hc
  · rw [if_neg hca] at hc
    rw [List.mem_singleton] at hc
    exact hca hc.symm

/-- C5: for every non-Pod resource no field is exempted from substitution:
the final text is exactly the rule-substituted serialized resource (the
`metadata.name` restoration stage is skipped), and — for a single rule with
a one-character pattern that its replacement does not reintroduce — no
occurrence of the pattern survives anywhere in the mutated text, the
`metadata.name` region included. -/
theorem c5_non_pod_no_exemption (item : Json) (patterns : List (String × String))
    (h : kindOf item ≠ "Pod") :
    finalText item patterns = substitutedText item patterns ∧
    (∀ (a : Char) (r : String), patterns = [(⟨[a]⟩, r)] → a ∉ r.data →
      a ∉ finalText item patterns) := by
  have hft : finalText item patterns = substitutedText item patterns := by
    unfold finalText
    rw [if_neg h]
  refine ⟨hft, ?_⟩
  intro a r hpat har
  rw [hft, hpat]
  rw [show substitutedText item [(⟨[a]⟩, r)]
      = replaceAll (serL item) [a] r.data from rfl]
  rw [replaceAll_singleton]
  exact not_mem_flatMap_subst a r.data har (serL item)

def c5cm : Json := .obj [("data", .obj [("k", .str "staging")]), ("kind", .str "ConfigMap")]

/-- C5 witness: a ConfigMap resource with the single-character rule
`g ↦ X`: after substitution the pattern is gone from the whole text and no
restoration stage ran. -/
theorem c5_non_pod_no_exemption_witness :
    finalText c5cm [("g", "X")] = substitutedText c5cm [("g", "X")] ∧
    'g' ∉ finalText c5cm [("g", "X")] := by
  have h := c5_non_pod_no_exemption c5cm [("g", "X")] (by decide)
  exact ⟨h.1, h.2 'g' "X" (by decide) (by decide)⟩

/-! ### Claim C9: error behaviour of Execute -/

/-- C9: `Execute` fails exactly when the rules were fetched and the
deserialization of the substituted text fails (serialization of the input
cannot fail in the model, and the only other stages — fetch and status
advancement — fail open); on failure no partial result is produced: no
output resource is returned and the store is untouched. -/
theorem c9_execute_error_iff (env : Env) (store : List PodVolumeRestore) (item : Json) :
    ((Execute env store item).1 = Except.error () ↔
      ∃ patterns, getConfigMapDataByLabel env ruleSelector = Except.ok patterns ∧
        deserializationFails item patterns = true) ∧
    ((Execute env store item).1 = Except.error () → (Execute env store item).2 = store) := by
  cases hf : getConfigMapDataByLabel env ruleSelector with
  | error e =>
    simp only [Execute, hf]
    constructor
    · constructor
      · intro h
        cases h
      · rintro ⟨ps, hps, _⟩
        cases hps
    · intro h
      trivial
  | ok ps =>
    cases hr : replacePatternAction item ps with
    | error e =>
      cases e
      simp only [Execute, hf, hr]
      constructor
      · constructor
        · intro _
          exact ⟨ps, rfl, (rpa_error_iff item ps).mp hr⟩
        · intro _
          trivial
      · intro _
        trivial
    | ok out =>
      simp only [Execute, hf, hr]
      constructor
      · constructor
        · intro h
          cases h
        · rintro ⟨ps', hps', hfail⟩
          cases hps'
          have hcontra := (rpa_error_iff item ps).mpr hfail
          rw [hr] at hcontra
          cases hcontra
      · intro h
        cases h

def c9env : Env := ⟨.ok [[("\"a\"", "")]], true, true⟩

def c9item : Json := .obj [("v", .str "a")]

/-- C9 witness: a rule that deletes the serialized `"a"` literal leaves
syntactically invalid text; `Execute` returns the error and the store is
untouched. -/
theorem c9_execute_error_iff_witness :
    (Execute c9env [] c9item).1 = Except.error () ∧
    (Execute c9env [] c9item).2 = ([] : List PodVolumeRestore) := by
  have h := c9_execute_error_iff c9env [] c9item
  have he : (Execute c9env [] c9item).1 = Except.error () :=
    h.1.mpr ⟨[("\"a\"", "")], by decide, by decide⟩
  exact ⟨he, h.2 he⟩

/-! ### Claim C4: determinism and rule-iteration order -/

def c4item : Json := .obj [("v", .str "a")]

def c4r1 : List (String × String) := [("a", "b"), ("b", "c")]

def c4r2 : List (String × String) := [("b", "c"), ("a", "b")]

/-- C4 counterexample: the same rule mapping iterated in two different
orders (Go map iteration order is unspecified) produces different mutated
resources, refuting order-independence of `replacePatternAction`. -/
theorem c4_order_dependent_counterexample :
    List.Perm c4r1 c4r2 ∧
    replacePatternAction c4item c4r1 ≠ replacePatternAction c4item c4r2 :=
  ⟨by decide, by decide⟩

/-- One character-to-text substitution step, the `flatMap` view of
`strings.ReplaceAll` with a one-character pattern. -/
def substChar (x : Char) (r : List Char) (c : Char) : List Char :=
  if c = x then r else [c]

/-- Non-interference of a rule set: every pattern is a single character,
patterns are pairwise distinct, and no replacement contains another rule's
pattern character. -/
def RulesIndep (rules : List (String × String)) : Prop :=
  (∀ pr ∈ rules, pr.1.data.length = 1) ∧
  (∀ pr ∈ rules, ∀ qr ∈ rules, pr ≠ qr →
    pr.1 ≠ qr.1 ∧ ∀ c ∈ qr.1.data, c ∉ pr.2.data)

theorem stringDataInj {s t : String} (h : s.data = t.data) : s = t := by
  cases s
  cases t
  cases h
  rfl

theorem flatMap_fix (g : Char → List Char) :
    ∀ l : List Char, (∀ c ∈ l, g c = [c]) → l.flatMap g = l := by
  intro l
  induction l with
  | nil => intro _; rfl
  | cons c cs ih =>
    intro h
    rw [List.flatMap_cons, h c (by simp), ih (fun c' hc' => h c' (by simp [hc']))]
    rfl

theorem substChar_comm_head (a b : Char) (ra rb : List Char) (hab : a ≠ b)
    (hbra : b ∉ ra) (harb : a ∉ rb) (c : Char) :
    (substChar a ra c).flatMap (substChar b rb)
      = (substChar b rb c).flatMap (substChar a ra) := by
  by_cases hca : c = a
  · have hcb : c ≠ b := by rw [hca]; exact hab
    rw [show substChar a ra c = ra from by simp [substChar, hca]]
    rw [show substChar b rb c = [c] from by simp [substChar, hcb]]
    rw [flatMap_fix _ ra (fun x hx => by
      have hxb : ¬(x = b) := fun he => hbra (he ▸ hx)
      simp [substChar, hxb])]
    rw [show [c].flatMap (substChar a ra) = substChar a ra c from by simp]
    rw [show substChar a ra c = ra from by simp [substChar, hca]]
  · by_cases hcb : c = b
    · rw [show substChar a ra c = [c] from by simp [substChar, hca]]
      rw [show substChar b rb c = rb from by simp [substChar, hcb]]
      rw [show [c].flatMap (substChar b rb) = substChar b rb c from by simp]
      rw [show substChar b rb c = rb from by simp [substChar, hcb]]
      rw [flatMap_fix _ rb (fun x hx => by
        have hxa : ¬(x = a) := fun he => harb (he ▸ hx)
        simp [substChar, hxa])]
    · rw [show substChar a ra c = [c] from by simp [substChar, hca]]
      rw [show substChar b rb c = [c] from by simp [substChar, hcb]]
      rw [show [c].flatMap (substChar b rb) = substChar b rb c from by simp]
      rw [show [c].flatMap (substChar a ra) = substChar a ra c from by simp]
      rw [show substChar a ra c = [c] from by simp [substChar, hca]]
      rw [show substChar b rb c = [c] from by simp [substChar, hcb]]

theorem subst_comm (a b : Char) (ra rb : List Char) (hab : a ≠ b)
    (hbra : b ∉ ra) (harb : a ∉ rb) :
    ∀ s : List Char,
      (s.flatMap (substChar a ra)).flatMap (substChar b rb)
        = (s.flatMap (substChar b rb)).flatMap (substChar a ra) := by
  intro s
  induction s with
  | nil => rfl
  | cons c cs ih =>
    rw [List.flatMap_cons, List.flatMap_cons, List.flatMap_append, List.flatMap_append, ih,
      substChar_comm_head a b ra rb hab hbra harb c]

/-- `replaceAll_singleton`, phrased with `substChar`. -/
theorem replaceAll_substChar (a : Char) (r : List Char) (s : List Char) :
    replaceAll s [a] r = s.flatMap (substChar a r) :=
  replaceAll_singleton a r s

/-- C4 (amended): `replacePatternAction` is a pure function of the resource
and the ordered rule list, and its result is independent of the iteration
order whenever the rules are non-interfering (single-character patterns,
pairwise distinct, whose replacements avoid every pattern character); for
interfering rules the result may depend on the unspecified Go map iteration
order. -/
theorem c4_subst_deterministic_of_indep (item : Json) (r1 r2 : List (String × String))
    (hind : RulesIndep r1) (hperm : List.Perm r1 r2) :
    replacePatternAction item r1 = replacePatternAction item r2 := by
  have hcomm : ∀ x ∈ r1, ∀ y ∈ r1, ∀ z : List Char,
      replaceAll (replaceAll z x.1.data x.2.data) y.1.data y.2.data
        = replaceAll (replaceAll z y.1.data y.2.data) x.1.data x.2.data := by
    intro x hx y hy z
    by_cases hxy : x = y
    · rw [hxy]
    · obtain ⟨a, ha⟩ := List.length_eq_one.mp (hind.1 x hx)
      obtain ⟨b, hb⟩ := List.length_eq_one.mp (hind.1 y hy)
      obtain ⟨hne₁, hno₁⟩ := hind.2 x hx y hy hxy
      obtain ⟨hne₂, hno₂⟩ := hind.2 y hy x hx (fun h => hxy h.symm)
      have hbx : b ∉ x.2.data := hno₁ b (by rw [hb]; simp)
      have hay : a ∉ y.2.data := hno₂ a (by rw [ha]; simp)
      have hab : a ≠ b := by
        intro he
        apply hne₁
        apply stringDataInj
        rw [ha, hb, he]
      rw [ha, hb]
      simp only [replaceAll_substChar]
      exact subst_comm a b x.2.data y.2.data hab hbx hay z
  have hsub : substitutedText item r1 = substitutedText item r2 := by
    unfold substitutedText
    exact List.Perm.foldl_eq' hperm hcomm (serL item)
  unfold replacePatternAction finalText
  rw [hsub]

def c4witem : Json := .obj [("v", .str "ac")]

/-- C4 witness: two orderings of the non-interfering rule set
`a ↦ b, c ↦ d` give the same mutated resource. -/
theorem c4_subst_deterministic_of_indep_witness :
    replacePatternAction c4witem [("a", "b"), ("c", "d")]
      = replacePatternAction c4witem [("c", "d"), ("a", "b")] :=
  c4_subst_deterministic_of_indep c4witem [("a", "b"), ("c", "d")] [("c", "d"), ("a", "b")]
    (by unfold RulesIndep; decide) (by decide)

/-! ### Claims C6/C7: the correlation and status advancer -/

theorem updateStatus_length (store : List PodVolumeRestore) (r : PodVolumeRestore) :
    (updateStatus store r).length = store.length := by
  simp [updateStatus]

theorem updateStatus_getElem (store : List PodVolumeRestore) (r : PodVolumeRestore)
    (i : Nat) (h : i < store.length) (h' : i < (updateStatus store r).length) :
    (updateStatus store r)[i] = if store[i].name = r.name then r else store[i] := by
  simp [updateStatus]

theorem runUpdates_ok_eq_foldl (env : Env) (h : env.updatePVROk = true) (pn : String) :
    ∀ (l store : List PodVolumeRestore),
      runUpdates env pn l store
        = (none, (l.filter (fun p => p.podName == pn)).foldl
            (fun st p => updateStatus st (setInProgress p)) store) := by
  intro l
  induction l with
  | nil => intro store; rfl
  | cons p l' ih =>
    intro store
    rw [show runUpdates env pn (p :: l') store
        = if p.podName = pn then
            (if env.updatePVROk then
              runUpdates env pn l' (updateStatus store (setInProgress p))
            else (some "failed to update PodVolumeRestore status", store))
          else runUpdates env pn l' store from rfl]
    by_cases hp : p.podName = pn
    · rw [if_pos hp, if_pos h, ih]
      rw [List.filter_cons_of_pos (by simp [hp]), List.foldl_cons]
    · rw [if_neg hp, ih]
      rw [List.filter_cons_of_neg (by simp [hp])]

theorem foldlUpd_length :
    ∀ (l st : List PodVolumeRestore),
      (l.foldl (fun st p => updateStatus st (setInProgress p)) st).length = st.length := by
  intro l
  induction l with
  | nil => intro st; rfl
  | cons p l' ih =>
    intro st
    rw [List.foldl_cons, ih, updateStatus_length]

theorem foldlUpd_getElem :
    ∀ (l st : List PodVolumeRestore),
      (l.map PodVolumeRestore.name).Nodup →
      ∀ (i : Nat) (h : i < st.length)
        (h' : i < (l.foldl (fun st p => updateStatus st (setInProgress p)) st).length)
        (n : String), (st[i]).name = n →
      (l.foldl (fun st p => updateStatus st (setInProgress p)) st)[i]
        = match l.find? (fun p => p.name == n) with
          | some p => setInProgress p
          | none => st[i] := by
  intro l
  induction l with
  | nil =>
    intro st _ i h h' n hn
    simp
  | cons p l' ih =>
    intro st hnodup i h h' n hn
    have hnodup' : (l'.map PodVolumeRestore.name).Nodup := by
      rw [List.map_cons] at hnodup
      exact (List.nodup_cons.mp hnodup).2
    have hpnot : p.name ∉ l'.map PodVolumeRestore.name := by
      rw [List.map_cons] at hnodup
      exact (List.nodup_cons.mp hnodup).1
    have hlen : i < (updateStatus st (setInProgress p)).length := by
      rw [updateStatus_length]
      exact h
    have hup : (updateStatus st (setInProgress p))[i]
        = if st[i].name = p.name then setInProgress p else st[i] := by
      rw [updateStatus_getElem st (setInProgress p) i h hlen]
      rfl
    simp only [List.foldl_cons]
    by_cases hni : n = p.name
    · have hupv : (updateStatus st (setInProgress p))[i] = setInProgress p := by
        rw [hup, if_pos (by rw [hn, hni])]
      have hstep := ih (updateStatus st (setInProgress p)) hnodup' i hlen
        (by rw [foldlUpd_length, updateStatus_length]; exact h) n
        (by rw [hupv]; exact hni.symm)
      rw [hstep]
      have hfind : l'.find? (fun q => q.name == n) = none := by
        rw [List.find?_eq_none]
        intro q hq
        simp only [beq_iff_eq]
        intro hqe
        apply hpnot
        rw [← hni, ← hqe]
        exact List.mem_map_of_mem _ hq
      rw [hfind, List.find?_cons_of_pos _ (by simp [hni.symm])]
      exact hupv
    · have hupv : (updateStatus st (setInProgress p))[i] = st[i] := by
        rw [hup, if_neg (by rw [hn]; exact hni)]
      have hstep := ih (updateStatus st (setInProgress p)) hnodup' i hlen
        (by rw [foldlUpd_length, updateStatus_length]; exact h) n
        (by rw [hupv]; exact hn)
      rw [hstep]
      rw [List.find?_cons_of_neg _ (by
        intro hc
        simp only [beq_iff_eq] at hc
        exact hni hc.symm)]
      cases hf : l'.find? (fun q => q.name == n) with
      | some q => rfl
      | none => exact hupv

/-- Characterization of a fully successful `triggerPodVolumeRestore` run:
the store becomes the pointwise update that sets in-progress exactly the
records matching both the correlation-label selector and the Pod name. -/
theorem trigger_ok_eq_map (env : Env) (pod : Json) (store : List PodVolumeRestore)
    (ls : List (String × String)) (rn ruid : String)
    (hlist : env.listPVROk = true) (hupd : env.updatePVROk = true)
    (hkind : kindOf pod = "Pod")
    (hlab : labelsOf pod = some ls)
    (hrn : List.lookup "velero.io/restore-name" ls = some rn) (hrne : rn ≠ "")
    (huid : List.lookup "velero.io/restore-uid" ls = some ruid) (huidne : ruid ≠ "")
    (hnodup : (store.map PodVolumeRestore.name).Nodup) :
    triggerPodVolumeRestore env pod store
      = (none, store.map (fun r =>
          if matchesSelector rn ruid r && (r.podName == nameOf pod)
          then setInProgress r else r)) := by
  have h1 : triggerPodVolumeRestore env pod store
      = runUpdates env (nameOf pod) (store.filter (matchesSelector rn ruid)) store := by
    unfold triggerPodVolumeRestore
    rw [if_pos hkind]
    simp only [hlab, hrn, huid, Option.getD_some]
    rw [if_neg (by
      intro hc
      rcases hc with hc | hc
      · exact hrne hc
      · exact huidne hc)]
    rw [if_neg (by rw [hlist]; simp)]
  rw [h1, runUpdates_ok_eq_foldl env hupd]
  apply congrArg (Prod.mk none)
  have hQC : (store.filter (matchesSelector rn ruid)).filter
        (fun p => p.podName == nameOf pod)
      = store.filter (fun r => matchesSelector rn ruid r && (r.podName == nameOf pod)) := by
    rw [List.filter_filter]
    apply List.filter_congr
    intro r _
    exact Bool.and_comm _ _
  rw [hQC]
  have hsubnodup : ((store.filter (fun r =>
      matchesSelector rn ruid r && (r.podName == nameOf pod))).map
        PodVolumeRestore.name).Nodup :=
    List.Nodup.sublist (List.Sublist.map _ (List.filter_sublist store)) hnodup
  apply List.ext_getElem
  · rw [foldlUpd_length, List.length_map]
  · intro i h₁ h₂
    have hi : i < store.length := by
      rw [foldlUpd_length] at h₁
      exact h₁
    rw [List.getElem_map]
    rw [foldlUpd_getElem _ store hsubnodup i hi h₁ (store[i]).name rfl]
    cases hf : (store.filter (fun r =>
        matchesSelector rn ruid r && (r.podName == nameOf pod))).find?
          (fun p => p.name == (store[i]).name) with
    | some q =>
      have hqmem := List.mem_of_find?_eq_some hf
      have hqpred := List.find?_some hf
      simp only [beq_iff_eq] at hqpred
      have hqstore : q ∈ store := (List.mem_filter.mp hqmem).1
      have hqP := (List.mem_filter.mp hqmem).2
      have hqeq : q = store[i] :=
        List.inj_on_of_nodup_map hnodup hqstore (List.getElem_mem _) hqpred
      rw [hqeq] at hqP
      rw [if_pos hqP, hqeq]
    | none =>
      have hPf : ¬((matchesSelector rn ruid (store[i])
          && ((store[i]).podName == nameOf pod)) = true) := by
        intro hP
        have hmem : (store[i])
            ∈ store.filter (fun r =>
              matchesSelector rn ruid r && (r.podName == nameOf pod)) :=
          List.mem_filter.mpr ⟨List.getElem_mem _, hP⟩
        have hcontra := List.find?_eq_none.mp hf _ hmem
        simp at hcontra
      rw [if_neg hPf]

/-- C6: for a Pod carrying both correlation labels, a successful run of
`triggerPodVolumeRestore` sets phase in-progress on exactly those store
records that match the correlation-label selector and whose embedded
Pod-name reference equals the Pod's `metadata.name`, and leaves every
other record untouched. -/
theorem c6_trigger_advances_exactly_matching (env : Env) (pod : Json)
    (store : List PodVolumeRestore) (ls : List (String × String)) (rn ruid : String)
    (hlist : env.listPVROk = true) (hupd : env.updatePVROk = true)
    (hkind : kindOf pod = "Pod")
    (hlab : labelsOf pod = some ls)
    (hrn : List.lookup "velero.io/restore-name" ls = some rn) (hrne : rn ≠ "")
    (huid : List.lookup "velero.io/restore-uid" ls = some ruid) (huidne : ruid ≠ "")
    (hnodup : (store.map PodVolumeRestore.name).Nodup) :
    triggerPodVolumeRestore env pod store
      = (none, store.map (fun r =>
          if matchesSelector rn ruid r && (r.podName == nameOf pod)
          then setInProgress r else r)) :=
  trigger_ok_eq_map env pod store ls rn ruid hlist hupd hkind hlab hrn hrne huid huidne hnodup

def c6env : Env := ⟨.ok [], true, true⟩

def c6pod : Json := .obj [("kind", .str "Pod"), ("metadata", .obj [
  ("labels", .obj [("velero.io/restore-name", .str "r1"),
                   ("velero.io/restore-uid", .str "u1")]),
  ("name", .str "p1")])]

def c6store : List PodVolumeRestore :=
  [⟨"pvr1", [("velero.io/restore-name", "r1"), ("velero.io/restore-uid", "u1")],
    "p1", PodVolumeRestorePhase.new⟩,
   ⟨"pvr2", [("velero.io/restore-name", "r1"), ("velero.io/restore-uid", "u1")],
    "p2", PodVolumeRestorePhase.new⟩,
   ⟨"pvr3", [("velero.io/restore-name", "r9"), ("velero.io/restore-uid", "u1")],
    "p1", PodVolumeRestorePhase.new⟩]

/-- C6 witness: the spec's Example 4 — records sharing correlation labels
but only one with the matching embedded Pod name; exactly that one
advances. -/
theorem c6_trigger_advances_exactly_matching_witness :
    triggerPodVolumeRestore c6env c6pod c6store
      = (none, c6store.map (fun r =>
          if matchesSelector "r1" "u1" r && (r.podName == nameOf c6pod)
          then setInProgress r else r)) :=
  c6_trigger_advances_exactly_matching c6env c6pod c6store
    [("velero.io/restore-name", "r1"), ("velero.io/restore-uid", "u1")] "r1" "u1"
    (by decide) (by decide) (by decide) (by decide) (by decide) (by decide)
    (by decide) (by decide) (by decide)

/-- C7: the status advancer is idempotent: under the same conditions as C6
a first application succeeds and yields a store on which a second
application succeeds and changes nothing, every matched record having
phase in-progress after each application (the prior phase is never read). -/
theorem c7_trigger_idempotent (env : Env) (pod : Json)
    (store : List PodVolumeRestore) (ls : List (String × String)) (rn ruid : String)
    (hlist : env.listPVROk = true) (hupd : env.updatePVROk = true)
    (hkind : kindOf pod = "Pod")
    (hlab : labelsOf pod = some ls)
    (hrn : List.lookup "velero.io/restore-name" ls = some rn) (hrne : rn ≠ "")
    (huid : List.lookup "velero.io/restore-uid" ls = some ruid) (huidne : ruid ≠ "")
    (hnodup : (store.map PodVolumeRestore.name).Nodup) :
    ∃ s₁, triggerPodVolumeRestore env pod store = (none, s₁) ∧
      triggerPodVolumeRestore env pod s₁ = (none, s₁) ∧
      ∀ r ∈ store, (matchesSelector rn ruid r && (r.podName == nameOf pod)) = true →
        setInProgress r ∈ s₁ ∧
        (setInProgress r).phase = PodVolumeRestorePhase.inProgress := by
  refine ⟨store.map (fun r =>
      if matchesSelector rn ruid r && (r.podName == nameOf pod)
      then setInProgress r else r),
    trigger_ok_eq_map env pod store ls rn ruid hlist hupd hkind hlab hrn hrne huid
      huidne hnodup, ?_, ?_⟩
  · have hnames : (store.map (fun r =>
        if matchesSelector rn ruid r && (r.podName == nameOf pod)
        then setInProgress r else r)).map PodVolumeRestore.name
        = store.map PodVolumeRestore.name := by
      rw [List.map_map]
      apply List.map_congr_left
      intro r _
      by_cases hP : (matchesSelector rn ruid r && (r.podName == nameOf pod)) = true
      · show PodVolumeRestore.name (if _ then _ else _) = _
        rw [if_pos hP]
        rfl
      · show PodVolumeRestore.name (if _ then _ else _) = _
        rw [if_neg hP]
    have h2 := trigger_ok_eq_map env pod (store.map (fun r =>
        if matchesSelector rn ruid r && (r.podName == nameOf pod)
        then setInProgress r else r)) ls rn ruid hlist hupd hkind hlab hrn hrne huid
      huidne (by rw [hnames]; exact hnodup)
    rw [h2]
    apply congrArg (Prod.mk none)
    rw [List.map_map]
    apply List.map_congr_left
    intro r _
    simp only [Function.comp_apply]
    by_cases hP : (matchesSelector rn ruid r && (r.podName == nameOf pod)) = true
    · rw [if_pos hP]
      have hP' : (matchesSelector rn ruid (setInProgress r)
          && ((setInProgress r).podName == nameOf pod)) = true := hP
      rw [if_pos hP']
      rfl
    · rw [if_neg hP, if_neg hP]
  · intro r hr hP
    constructor
    · rw [List.mem_map]
      exact ⟨r, hr, by rw [if_pos hP]⟩
    · rfl

/-- C7 witness: one matching Pod/record pair discharges the idempotence
theorem's hypotheses. -/
theorem c7_trigger_idempotent_witness :
    ∃ s₁, triggerPodVolumeRestore c6env c6pod
        [⟨"w", [("velero.io/restore-name", "r1"), ("velero.io/restore-uid", "u1")],
          "p1", PodVolumeRestorePhase.new⟩] = (none, s₁) ∧
      triggerPodVolumeRestore c6env c6pod s₁ = (none, s₁) ∧
      ∀ r ∈ [(⟨"w", [("velero.io/restore-name", "r1"), ("velero.io/restore-uid", "u1")],
          "p1", PodVolumeRestorePhase.new⟩ : PodVolumeRestore)],
        (matchesSelector "r1" "u1" r && (r.podName == nameOf c6pod)) = true →
        setInProgress r ∈ s₁ ∧
        (setInProgress r).phase = PodVolumeRestorePhase.inProgress :=
  c7_trigger_idempotent c6env c6pod _
    [("velero.io/restore-name", "r1"), ("velero.io/restore-uid", "u1")] "r1" "u1"
    (by decide) (by decide) (by decide) (by decide) (by decide) (by decide)
    (by decide) (by decide) (by decide)

/-! ### Claim C8: Execute swallows status-advancer failures -/

/-- C8: once the rules were fetched and the substitution succeeded,
`Execute` returns the mutated resource with no error whatever the
status-advancement stage does (nil labels, missing correlation labels,
list failure or update failure included); and in the missing-label cases
the store is untouched. -/
theorem c8_execute_swallows_advancer_failure (env : Env) (store : List PodVolumeRestore)
    (item : Json) (patterns : List (String × String)) (output : Json)
    (hf : getConfigMapDataByLabel env ruleSelector = Except.ok patterns)
    (hr : replacePatternAction item patterns = Except.ok output) :
    (Execute env store item).1 = Except.ok output ∧
    (kindOf output = "Pod" →
      (labelsOf output = none ∨
        (∃ ls, labelsOf output = some ls ∧
          ((List.lookup "velero.io/restore-name" ls).getD "" = "" ∨
           (List.lookup "velero.io/restore-uid" ls).getD "" = ""))) →
      (Execute env store item).2 = store) := by
  constructor
  · simp only [Execute, hf, hr]
  · intro hkind hcond
    simp only [Execute, hf, hr]
    unfold triggerPodVolumeRestore
    rw [if_pos hkind]
    rcases hcond with hnone | ⟨ls, hls, hmiss⟩
    · simp only [hnone]
    · simp only [hls]
      rw [if_pos (by
        rcases hmiss with hm | hm
        · exact Or.inl hm
        · exact Or.inr hm)]

def c8env : Env := ⟨.ok [[("x", "y")]], true, true⟩

def c8pod : Json := .obj [("kind", .str "Pod"), ("metadata", .obj [("name", .str "p")])]

def c8store : List PodVolumeRestore :=
  [⟨"pvr1", [("velero.io/restore-name", "r1"), ("velero.io/restore-uid", "u1")],
    "p", PodVolumeRestorePhase.new⟩]

/-- C8 witness: the spec's Example 3 shape — a Pod with no labels at all:
`Execute` still returns the mutated Pod and performs no store update. -/
theorem c8_execute_swallows_advancer_failure_witness :
    (Execute c8env c8store c8pod).1 = Except.ok c8pod ∧
    (Execute c8env c8store c8pod).2 = c8store := by
  have h := c8_execute_swallows_advancer_failure c8env c8store c8pod [("x", "y")] c8pod
    (by decide) (by decide)
  exact ⟨h.1, h.2 (by decide) (Or.inl (by decide))⟩
